import Mathlib

/-!
Shallow embedding of the Inertial-Sensor-Analytics repository
(`src/basic_analysis.py`, `src/advanced_analysis.py`).

Tables (pandas DataFrames) are modelled as ordered lists of named columns
over exact rationals; spreadsheet reading, plotting and Excel styling are
out of scope (opaque sinks/sources per the spec).  A raw input file is
either unreadable (any read exception) or a pair of sheets
(Accelerometer, Gyroscope).  Python exceptions that the scripts catch are
modelled as `Option`/`none`; exceptions the scripts do *not* catch (the
bare `[...][0]` channel lookups inside the analysis functions) are
modelled as `Except.error`, which propagates out of the batch loop.
-/

namespace ISA

-- Mathlib marks the core rational operations irreducible; restore
-- definitional reducibility so that concrete runs of the embedded
-- pipeline can be evaluated by `decide`/`rfl` (kernel reduction was
-- always possible; this only re-enables it for elaboration).
attribute [local semireducible] Rat.add Rat.mul Rat.sub Rat.inv

/-- Python's substring test `p in s` on the character list level:
`isSubList p s` is true iff `p` occurs contiguously inside `s`. -/
def isSubList (p : List Char) : List Char → Bool
  | [] => p.isEmpty
  | c :: rest => p.isPrefixOf (c :: rest) || isSubList p rest

/-- Python's `pat in s` for strings (substring containment). -/
def containsStr (pat s : String) : Bool :=
  isSubList pat.data s.data

/-- Python's `str.lower()` (character-wise lowercasing; trial names are
ASCII). -/
def strToLower (s : String) : String :=
  ⟨s.data.map Char.toLower⟩

/-- A pandas DataFrame: an ordered list of (column name, column values).
All columns of a well-formed table have the same number of rows. -/
structure Table where
  cols : List (String × List ℚ)
  deriving Repr, DecidableEq

/-- `df[name]` — the first column with the given name, if any. -/
def Table.getCol? (t : Table) (name : String) : Option (List ℚ) :=
  (t.cols.find? (fun c => c.1 = name)).map Prod.snd

/-- `df[name]` with a default for absent columns (the scripts only read
columns that exist; the default is never reached on well-formed input). -/
def Table.getColD (t : Table) (name : String) : List ℚ :=
  (t.getCol? name).getD []

/-- `df[name] = vals` — pandas column assignment: replaces the column in
place if the name exists, otherwise appends a new column at the end. -/
def Table.setCol (t : Table) (name : String) (vals : List ℚ) : Table :=
  if t.cols.any (fun c => c.1 = name) then
    ⟨t.cols.map (fun c => if c.1 = name then (c.1, vals) else c)⟩
  else
    ⟨t.cols ++ [(name, vals)]⟩

/-- `df.rename(columns={old: new})` — renames every column named `old`. -/
def Table.renameCol (t : Table) (old new : String) : Table :=
  ⟨t.cols.map (fun c => if c.1 = old then (new, c.2) else c)⟩

/-- `[c for c in df.columns if "Time" in c][0]` — the first column whose
name contains the substring "Time" (`none` models the IndexError). -/
def findTimeCol (t : Table) : Option String :=
  (t.cols.map Prod.fst).find? (fun c => containsStr "Time" c)

/-- `[c for c in df.columns if pat in c][0]` — first column whose name
contains `pat`; `none` models the IndexError when no column matches. -/
def findChannel (t : Table) (pat : String) : Option String :=
  (t.cols.map Prod.fst).find? (fun c => containsStr pat c)

/-- One-point evaluation of `np.interp` over the sample points `pts`
(pairs of x-coordinate and value, x strictly increasing): clamps to the
first value left of the range and to the last value right of it, and
interpolates linearly between consecutive samples. -/
def interp (x : ℚ) : List (ℚ × ℚ) → ℚ
  | [] => 0
  | [(_, f0)] => f0
  | (x0, f0) :: (x1, f1) :: rest =>
    if x ≤ x0 then f0
    else if x ≤ x1 then f0 + (f1 - f0) * (x - x0) / (x1 - x0)
    else interp x ((x1, f1) :: rest)

/-- `np.interp(xs, xp, fp)` — vectorised linear interpolation. -/
def npInterp (xs xp fp : List ℚ) : List ℚ :=
  xs.map (fun x => interp x (xp.zip fp))

/-- One iteration of the merge loop `for col in df_gyro.columns: if col
!= "Time": df_merged[col] = np.interp(df_acc["Time"], df_gyro["Time"],
df_gyro[col])`, with the two fixed time axes `xs` (accelerometer) and
`xp` (gyroscope). -/
def mergeStep (xs xp : List ℚ) (m : Table) (c : String × List ℚ) : Table :=
  if c.1 = "Time" then m else m.setCol c.1 (npInterp xs xp c.2)

/-- The merge shared by both scripts: starting from the (renamed)
accelerometer table, every non-Time gyroscope column is resampled onto
the accelerometer time axis with `np.interp` and assigned into the
merged table. -/
def mergeTables (dfAcc dfGyro : Table) : Table :=
  dfGyro.cols.foldl
    (mergeStep (dfAcc.getColD "Time") (dfGyro.getColD "Time")) dfAcc

/-- Keep only the list entries whose mask bit is true (row filtering of a
column by a boolean series). -/
def maskFilter (mask : List Bool) (xs : List ℚ) : List ℚ :=
  ((mask.zip xs).filter (fun p => p.1)).map Prod.snd

/-- Row minimum of a time column (`df["Time"].min()` on nonempty data). -/
def colMin : List ℚ → ℚ
  | [] => 0
  | h :: t => t.foldl min h

/-- Row maximum of a time column (`df["Time"].max()` on nonempty data). -/
def colMax : List ℚ → ℚ
  | [] => 0
  | h :: t => t.foldl max h

/-- The trim step of both scripts:
`df[(df["Time"] >= min+s) & (df["Time"] <= max-s)]` — keeps exactly the
rows whose timestamp is at least `s` from both ends. -/
def trimTable (s : ℚ) (t : Table) : Table :=
  let times := t.getColD "Time"
  let lo := colMin times + s
  let hi := colMax times - s
  let mask := times.map (fun x => decide (lo ≤ x) && decide (x ≤ hi))
  ⟨t.cols.map (fun c => (c.1, maskFilter mask c.2))⟩

/-- `TRIM_SECONDS = 1.0` in both scripts. -/
def TRIM_SECONDS : ℚ := 1

/-- A raw input spreadsheet: unreadable (any exception while reading the
sheets) or a pair of Accelerometer / Gyroscope sheets. -/
inductive RawFile where
  | unreadable
  | readable (acc gyro : Table)
  deriving Repr

/-- `advanced_analysis.load_phyphox_xls`: read both sheets, rename the
first Time-containing column of each to "Time", merge on the
accelerometer axis, trim `TRIM_SECONDS` from both ends.  Every exception
inside (unreadable file, missing time column) is caught and `None` is
returned. -/
def loadAdvanced (f : RawFile) : Option Table :=
  match f with
  | .unreadable => none
  | .readable acc gyro =>
    match findTimeCol acc, findTimeCol gyro with
    | some ta, some tg =>
      some (trimTable TRIM_SECONDS
        (mergeTables (acc.renameCol ta "Time") (gyro.renameCol tg "Time")))
    | _, _ => none

/-- `basic_analysis.load_phyphox_xls`: identical to the advanced loader
but without the trim step (basic trims inside `process_and_plot`). -/
def loadBasic (f : RawFile) : Option Table :=
  match f with
  | .unreadable => none
  | .readable acc gyro =>
    match findTimeCol acc, findTimeCol gyro with
    | some ta, some tg =>
      some (mergeTables (acc.renameCol ta "Time") (gyro.renameCol tg "Time"))
    | _, _ => none

/-- `bias.get(col, 0)` — dictionary lookup with default 0. -/
def biasGet (bias : List (String × ℚ)) (col : String) : ℚ :=
  ((bias.find? (fun p => p.1 = col)).map Prod.snd).getD 0

/-- Running accumulation step of `scipy.integrate.cumulative_trapezoid`:
given the running integral `acc` at sample `(t0, v0)`, emit the integral
at each later sample. -/
def cumtrapzFrom (acc t0 v0 : ℚ) : List ℚ → List ℚ → List ℚ
  | t1 :: ts, v1 :: vs =>
    (acc + (v0 + v1) / 2 * (t1 - t0)) ::
      cumtrapzFrom (acc + (v0 + v1) / 2 * (t1 - t0)) t1 v1 ts vs
  | _, _ => []

/-- `scipy.integrate.cumulative_trapezoid(v, t, initial=0)`: same length
as the input, first entry 0, each later entry adds one trapezoid. -/
def cumulativeTrapezoid (v t : List ℚ) : List ℚ :=
  match v, t with
  | v0 :: vs, t0 :: ts => 0 :: cumtrapzFrom 0 t0 v0 ts vs
  | _, _ => []

/-- `advanced_analysis.analyze_drift` (numeric core; the plot sink is out
of scope): looks up the forward-acceleration channel by substring match —
the bare `[...][0]` raises an uncaught IndexError when no column matches,
modelled as `Except.error` — then integrates the raw and the
bias-corrected channel.  Returns (time, raw velocity, corrected
velocity). -/
def analyzeDrift (df : Table) (bias : List (String × ℚ)) :
    Except String (List ℚ × List ℚ × List ℚ) :=
  match findChannel df "Acceleration y" with
  | none => .error "IndexError: no column matching Acceleration y"
  | some accCol =>
    let time := df.getColD "Time"
    if time.isEmpty then
      -- a zero-row frame raises inside the analysis (scipy's at-least-one-
      -- point check / matplotlib's length check), again uncaught
      .error "ValueError: at least one point is required"
    else
      let accRaw := df.getColD accCol
      let velRaw := cumulativeTrapezoid accRaw time
      let accCorr := accRaw.map (fun a => a - biasGet bias accCol)
      let velCorr := cumulativeTrapezoid accCorr time
      .ok (time, velRaw, velCorr)

/-- `advanced_analysis.analyze_heading` (numeric core): looks up the yaw
channel — uncaught IndexError when absent — subtracts the bias and
integrates.  Returns (time, integrated angle in radians); the script then
applies `np.degrees` (a fixed 180/π scalar multiple, outside ℚ) only for
plot labelling. -/
def analyzeHeading (df : Table) (bias : List (String × ℚ)) :
    Except String (List ℚ × List ℚ) :=
  match findChannel df "Gyroscope z" with
  | none => .error "IndexError: no column matching Gyroscope z"
  | some gyroCol =>
    let time := df.getColD "Time"
    if time.isEmpty then
      .error "ValueError: at least one point is required"
    else
      let gyroRaw := df.getColD gyroCol
      let gyroCorr := gyroRaw.map (fun g => g - biasGet bias gyroCol)
      let angleRad := cumulativeTrapezoid gyroCorr time
      .ok (time, angleRad)

/-- The main loop of `advanced_analysis.py`: for each file, skip
calibration files, skip files whose load returned `None` (caught
exceptions), route by name to drift or heading analysis.  An exception
inside an analysis function is not caught anywhere and aborts the whole
run (`Except.error`).  Returns the names of the trials that produced a
plot. -/
def runAdvanced (bias : List (String × ℚ)) :
    List (String × RawFile) → Except String (List String)
  | [] => .ok []
  | (f, raw) :: rest =>
    let name := strToLower f
    if containsStr "stationary" name then runAdvanced bias rest
    else
      match loadAdvanced raw with
      | none => runAdvanced bias rest
      | some df =>
        if containsStr "straight" name || containsStr "reverse" name then
          match analyzeDrift df bias with
          | .error e => .error e
          | .ok _ => (runAdvanced bias rest).map (fun l => name :: l)
        else if containsStr "lane" name then
          match analyzeHeading df bias with
          | .error e => .error e
          | .ok _ => (runAdvanced bias rest).map (fun l => name :: l)
        else runAdvanced bias rest

/-- `series.mean()` over a column (reached only on nonempty data). -/
def listMean (xs : List ℚ) : ℚ :=
  xs.sum / xs.length

/-- `series.std()` with the pandas default `ddof=1`, modelled at the
variance level (the Std cell is the square root of this; the root of a
rational is irrational in general, and `none` ↔ NaN transfers through
it): NaN (`none`) when fewer than two rows, otherwise the sum of squared
deviations divided by `n - 1`. -/
def sampleVar (xs : List ℚ) : Option ℚ :=
  if xs.length ≤ 1 then none
  else some ((xs.map (fun x => (x - listMean xs) ^ 2)).sum / ((xs.length : ℚ) - 1))

/-- Per-channel statistics of one trial: (channel, mean, std² as
`sampleVar`), one entry per non-Time column, in column order — the
`{col}_Mean` / `{col}_Std` fields of the stats dict built in
`process_and_plot`. -/
def trialStats (df : Table) : List (String × ℚ × Option ℚ) :=
  df.cols.filterMap
    (fun c => if c.1 = "Time" then none else some (c.1, listMean c.2, sampleVar c.2))

/-- The stats record `process_and_plot` appends for one trial. -/
structure TrialRecord where
  filename : String
  stats : List (String × ℚ × Option ℚ)
  deriving Repr, DecidableEq

/-- `basic_analysis.process_and_plot` (numeric core): trim, return `None`
if the trimmed frame is empty, then look up the six plot channels — each
bare `[...][0]` raises an uncaught IndexError when absent — and compute
the per-channel statistics. -/
def processAndPlot (df : Table) (filename : String) :
    Except String (Option TrialRecord) :=
  let dfTrim := trimTable TRIM_SECONDS df
  if (dfTrim.getColD "Time").length = 0 then .ok none
  else
    match findChannel dfTrim "Acceleration x", findChannel dfTrim "Acceleration y",
        findChannel dfTrim "Acceleration z", findChannel dfTrim "Gyroscope x",
        findChannel dfTrim "Gyroscope y", findChannel dfTrim "Gyroscope z" with
    | some _, some _, some _, some _, some _, some _ =>
      .ok (some ⟨filename, trialStats dfTrim⟩)
    | _, _, _, _, _, _ => .error "IndexError: missing plot channel"

/-- The main loop of `basic_analysis.py`: load each file, skip `None`
loads, run `process_and_plot`, append the record when one is returned;
an uncaught exception aborts the run. -/
def runBasic : List (String × RawFile) → Except String (List TrialRecord)
  | [] => .ok []
  | (f, raw) :: rest =>
    match loadBasic raw with
    | none => runBasic rest
    | some df =>
      match processAndPlot df f with
      | .error e => .error e
      | .ok none => runBasic rest
      | .ok (some r) => (runBasic rest).map (fun l => r :: l)

/-- One row handed to `save_formatted_excel`: the trial name plus its
numeric fields in a fixed column order (all records of one run share the
same columns). -/
structure StatRec where
  filename : String
  vals : List ℚ
  deriving Repr, DecidableEq

/-- `re.match(r"([a-zA-Z]+)", x)`-based group key: the maximal leading
run of ASCII letters of the name, or "Other" when the name does not
start with a letter. -/
def groupKey (s : String) : String :=
  let p := s.data.takeWhile Char.isAlpha
  if p.isEmpty then "Other" else String.mk p

/-- Insert a string into an ascending list.  Python compares strings
lexicographically by code point with a proper-prefix string smaller,
which is exactly the core `<` on the underlying character lists. -/
def insertAsc (s : String) : List String → List String
  | [] => [s]
  | x :: xs => if x.data < s.data then x :: insertAsc s xs else s :: x :: xs

/-- Ascending sort of group keys — `groupby(sort=True)`, the pandas
default, emits the groups in ascending key order. -/
def sortAsc (l : List String) : List String :=
  l.foldr insertAsc []

/-- The distinct group keys of a batch in the order `groupby` emits them:
deduplicated, then sorted ascending. -/
def groupKeys (stats : List StatRec) : List String :=
  sortAsc (stats.map (fun r => groupKey r.filename)).dedup

/-- Pointwise sum of equal-length rows. -/
def sumVecs : List (List ℚ) → List ℚ
  | [] => []
  | [v] => v
  | v :: vs => v.zipWith (· + ·) (sumVecs vs)

/-- Column-wise mean of the member rows of one group
(`groupby('Group').mean(numeric_only=True)`). -/
def avgVals (rows : List (List ℚ)) : List ℚ :=
  (sumVecs rows).map (fun x => x / (rows.length : ℚ))

/-- The synthesized `{group}_avg` row for key `k`. -/
def mkAvgRow (stats : List StatRec) (k : String) : StatRec :=
  ⟨k ++ "_avg",
    avgVals ((stats.filter (fun r => groupKey r.filename = k)).map StatRec.vals)⟩

/-- The row order `basic_analysis.save_formatted_excel` writes: nothing
for an empty batch; otherwise all raw per-trial rows in source order,
then one `{group}_avg` row per distinct group key in the ascending key
order produced by `groupby`. -/
def saveFormattedExcel (stats : List StatRec) : List StatRec :=
  if stats.isEmpty then []
  else stats ++ (groupKeys stats).map (mkAvgRow stats)

/-! Spec-side predicates (phrased from the specification's words, to be
related to the code-side definitions above by the theorems). -/

/-- Spec formula for the cumulative trapezoidal rule: the output has one
entry per sample, starts at exactly 0, and each later entry adds one
trapezoid of the channel `v` against the time axis `t`. -/
def TrapezoidRec (t v I : List ℚ) : Prop :=
  I.length = v.length ∧ I.getD 0 0 = 0 ∧
  ∀ i, i + 1 < I.length →
    I.getD (i + 1) 0 =
      I.getD i 0 + (v.getD (i + 1) 0 + v.getD i 0) / 2 *
        (t.getD (i + 1) 0 - t.getD i 0)

/-- Spec notion "maximal leading run of alphabetic characters": `g` is an
all-alphabetic leading piece of `s` and no all-alphabetic leading piece
is longer. -/
def MaxAlphaRun (s g : List Char) : Prop :=
  g <+: s ∧ (∀ c ∈ g, c.isAlpha) ∧
  ∀ h : List Char, h <+: s → (∀ c ∈ h, c.isAlpha) → h.length ≤ g.length

/-- Well-formedness of one sheet's time schema: `tc` is the first column
whose name contains "Time", and it is the only such column. -/
def UniqueTimeCol (t : Table) (tc : String) : Prop :=
  findTimeCol t = some tc ∧
  ∀ n ∈ t.cols.map Prod.fst, containsStr "Time" n = true → n = tc

instance uniqueTimeColDecidable (t : Table) (tc : String) :
    Decidable (UniqueTimeCol t tc) := by
  unfold UniqueTimeCol
  infer_instance

/-! Concrete inputs used by counterexamples and witnesses. -/

/-- A readable trial whose accelerometer sheet has no column matching
"Acceleration y". -/
def noChannelFile : RawFile :=
  .readable ⟨[("Time", [0, 1, 2, 3]), ("Acceleration x", [1, 2, 3, 4])]⟩
    ⟨[("Time", [0, 3]), ("Gyroscope z", [0, 0])]⟩

/-- A readable trial with all expected channels. -/
def goodFile : RawFile :=
  .readable ⟨[("Time", [0, 1, 2, 3]), ("Acceleration y", [1, 2, 3, 4])]⟩
    ⟨[("Time", [0, 3]), ("Gyroscope z", [0, 0])]⟩

/-- A readable trial spanning only 0.5 s, so that the 1 s trim empties
the merged series. -/
def emptyTrimFile : RawFile :=
  .readable ⟨[("Time", [0, 1/2]), ("Acceleration y", [5, 6])]⟩
    ⟨[("Time", [0, 1/2]), ("Gyroscope z", [0, 0])]⟩

/-! ## Lemmas about linear interpolation -/

theorem interp_singleton (x : ℚ) (q : ℚ × ℚ) : interp x [q] = q.2 := by
  obtain ⟨q1, q2⟩ := q
  rfl

theorem interp_head_le (x : ℚ) (p : ℚ × ℚ) (pts : List (ℚ × ℚ))
    (hx : x ≤ p.1) : interp x (p :: pts) = p.2 := by
  obtain ⟨p1, p2⟩ := p
  cases pts with
  | nil => rfl
  | cons q rest =>
    obtain ⟨q1, q2⟩ := q
    simp only [interp]
    rw [if_pos hx]

theorem interp_last_le (x : ℚ) :
    ∀ (pre : List (ℚ × ℚ)) (q : ℚ × ℚ),
      List.Pairwise (fun p r : ℚ × ℚ => p.1 < r.1) (pre ++ [q]) →
      q.1 ≤ x → interp x (pre ++ [q]) = q.2 := by
  intro pre
  induction pre with
  | nil => intro q _ _; exact interp_singleton x q
  | cons p pre ih =>
    intro q hpw hq
    have hpq : p.1 < q.1 :=
      (List.pairwise_cons.mp hpw).1 q (by simp)
    have hpw' := (List.pairwise_cons.mp hpw).2
    have hpx : ¬ x ≤ p.1 := by
      intro h
      exact absurd (lt_of_lt_of_le hpq hq) (by exact not_lt.mpr h)
    cases pre with
    | nil =>
      obtain ⟨p1, p2⟩ := p
      obtain ⟨q1, q2⟩ := q
      simp only [List.nil_append, List.cons_append] at *
      show interp x [(p1, p2), (q1, q2)] = q2
      simp only [interp]
      rw [if_neg hpx]
      by_cases hxq : x ≤ q1
      · have hx : x = q1 := le_antisymm hxq hq
        rw [if_pos hxq, hx]
        rw [mul_div_assoc, div_self (sub_ne_zero.mpr (ne_of_gt hpq)), mul_one]
        ring
      · rw [if_neg hxq]
    | cons r pre' =>
      have hrq : r.1 < q.1 :=
        (List.pairwise_cons.mp hpw').1 q (by simp)
      have hrx : ¬ x ≤ r.1 := by
        intro h
        exact absurd (lt_of_lt_of_le hrq hq) (by exact not_lt.mpr h)
      obtain ⟨p1, p2⟩ := p
      obtain ⟨r1, r2⟩ := r
      show interp x ((p1, p2) :: (r1, r2) :: (pre' ++ [q])) = q.2
      simp only [interp]
      rw [if_neg hpx, if_neg hrx]
      exact ih q hpw' hq

theorem interp_between (x : ℚ) :
    ∀ (pre : List (ℚ × ℚ)) (a b : ℚ × ℚ) (suf : List (ℚ × ℚ)),
      List.Pairwise (fun p r : ℚ × ℚ => p.1 < r.1) (pre ++ a :: b :: suf) →
      a.1 ≤ x → x ≤ b.1 →
      interp x (pre ++ a :: b :: suf) =
        a.2 + (b.2 - a.2) * (x - a.1) / (b.1 - a.1) := by
  intro pre
  induction pre with
  | nil =>
    intro a b suf hpw ha hb
    obtain ⟨a1, a2⟩ := a
    obtain ⟨b1, b2⟩ := b
    show interp x ((a1, a2) :: (b1, b2) :: suf) = _
    simp only [interp]
    by_cases hxa : x ≤ a1
    · have hx : x = a1 := le_antisymm hxa ha
      rw [if_pos hxa, hx]
      simp
    · rw [if_neg hxa, if_pos hb]
  | cons p pre ih =>
    intro a b suf hpw ha hb
    have hpa : p.1 < a.1 :=
      (List.pairwise_cons.mp hpw).1 a (by simp)
    have hpw' := (List.pairwise_cons.mp hpw).2
    have hpx : ¬ x ≤ p.1 := by
      intro h
      exact absurd (lt_of_lt_of_le hpa ha) (by exact not_lt.mpr h)
    cases pre with
    | nil =>
      obtain ⟨p1, p2⟩ := p
      obtain ⟨a1, a2⟩ := a
      show interp x ((p1, p2) :: (a1, a2) :: b :: suf) = _
      obtain ⟨b1, b2⟩ := b
      simp only [interp]
      rw [if_neg hpx]
      by_cases hxa : x ≤ a1
      · have hx : x = a1 := le_antisymm hxa ha
        rw [if_pos hxa, hx]
        rw [mul_div_assoc, div_self (sub_ne_zero.mpr (ne_of_gt hpa)), mul_one]
        simp
      · rw [if_neg hxa]
        exact ih (a1, a2) (b1, b2) suf hpw' ha hb
    | cons r pre' =>
      have hra : r.1 < a.1 :=
        (List.pairwise_cons.mp hpw').1 a (by simp)
      have hrx : ¬ x ≤ r.1 := by
        intro h
        exact absurd (lt_of_lt_of_le hra ha) (by exact not_lt.mpr h)
      obtain ⟨p1, p2⟩ := p
      obtain ⟨r1, r2⟩ := r
      show interp x ((p1, p2) :: (r1, r2) :: (pre' ++ a :: b :: suf)) = _
      simp only [interp]
      rw [if_neg hpx, if_neg hrx]
      exact ih a b suf hpw' ha hb

/-! ## Lemmas about column assignment, renaming and the merge loop -/

theorem find?_map_set_val (n : String) (v : List ℚ) :
    ∀ cols : List (String × List ℚ), cols.any (fun c => c.1 = n) = true →
      ((cols.map (fun c => if c.1 = n then (c.1, v) else c)).find?
        (fun c => c.1 = n)).map Prod.snd = some v := by
  intro cols
  induction cols with
  | nil => intro h; simp at h
  | cons c cols ih =>
    intro hany
    by_cases hc : c.1 = n
    · simp [hc, List.find?_cons]
    · simp only [List.any_cons, Bool.or_eq_true, decide_eq_true_eq] at hany
      rcases hany with h | h
      · exact absurd h hc
      · simp only [List.map_cons, if_neg hc, List.find?_cons]
        rw [show (decide (c.1 = n)) = false by simp [hc]]
        exact ih h

theorem find?_map_set_ne (n m : String) (v : List ℚ) (hm : m ≠ n) :
    ∀ cols : List (String × List ℚ),
      (cols.map (fun c => if c.1 = n then (c.1, v) else c)).find?
        (fun c => c.1 = m) = cols.find? (fun c => c.1 = m) := by
  intro cols
  induction cols with
  | nil => rfl
  | cons c cols ih =>
    by_cases hc : c.1 = n
    · have hcm : ¬ c.1 = m := by rw [hc]; exact fun h => hm h.symm
      simp only [List.map_cons, if_pos hc, List.find?_cons]
      rw [show (decide (c.1 = m)) = false by simp [hcm]]
      exact ih
    · simp only [List.map_cons, if_neg hc, List.find?_cons]
      by_cases hcm : c.1 = m
      · rw [show (decide (c.1 = m)) = true by simp [hcm]]
      · rw [show (decide (c.1 = m)) = false by simp [hcm]]
        exact ih

theorem getCol?_setCol_self (t : Table) (n : String) (v : List ℚ) :
    (t.setCol n v).getCol? n = some v := by
  obtain ⟨cols⟩ := t
  by_cases hany : cols.any (fun c => c.1 = n) = true
  · rw [Table.setCol, if_pos hany]
    exact find?_map_set_val n v cols hany
  · rw [Table.setCol, if_neg hany]
    show ((cols ++ [(n, v)]).find? (fun c => c.1 = n)).map Prod.snd = some v
    rw [List.find?_append]
    have hnone : cols.find? (fun c => decide (c.1 = n)) = none := by
      refine List.find?_eq_none.mpr ?_
      intro c hc
      intro he
      exact hany (List.any_eq_true.mpr ⟨c, hc, he⟩)
    rw [hnone]
    simp [List.find?_cons]

theorem getCol?_setCol_ne (t : Table) (n m : String) (v : List ℚ)
    (hm : m ≠ n) : (t.setCol n v).getCol? m = t.getCol? m := by
  obtain ⟨cols⟩ := t
  by_cases hany : cols.any (fun c => c.1 = n) = true
  · rw [Table.setCol, if_pos hany]
    show ((cols.map (fun c => if c.1 = n then (c.1, v) else c)).find?
      (fun c => c.1 = m)).map Prod.snd = _
    rw [find?_map_set_ne n m v hm cols]
    rfl
  · rw [Table.setCol, if_neg hany]
    show ((cols ++ [(n, v)]).find? (fun c => c.1 = m)).map Prod.snd = _
    rw [List.find?_append]
    have h1 : ([(n, v)] : List (String × List ℚ)).find?
        (fun c => c.1 = m) = none := by
      rw [List.find?_cons]
      rw [show (decide ((n, v).1 = m)) = false by simp [Ne.symm hm]]
      rfl
    rw [h1, Option.or_none]
    rfl

theorem foldl_mergeStep_untouched (xs xp : List ℚ) :
    ∀ (gcols : List (String × List ℚ)) (m : Table) (g : String),
      (∀ c ∈ gcols, c.1 ≠ g) →
      (gcols.foldl (mergeStep xs xp) m).getCol? g = m.getCol? g := by
  intro gcols
  induction gcols with
  | nil => intro m g _; rfl
  | cons c gcols ih =>
    intro m g hne
    have hcg : c.1 ≠ g := hne c (by simp)
    have hrest : ∀ d ∈ gcols, d.1 ≠ g := fun d hd =>
      hne d (List.mem_cons_of_mem c hd)
    simp only [List.foldl_cons, mergeStep]
    by_cases hc : c.1 = "Time"
    · rw [if_pos hc]
      exact ih m g hrest
    · rw [if_neg hc]
      rw [ih _ g hrest]
      exact getCol?_setCol_ne m c.1 g _ (Ne.symm hcg)

theorem foldl_mergeStep_time (xs xp : List ℚ) :
    ∀ (gcols : List (String × List ℚ)) (m : Table),
      (gcols.foldl (mergeStep xs xp) m).getCol? "Time" = m.getCol? "Time" := by
  intro gcols
  induction gcols with
  | nil => intro m; rfl
  | cons c gcols ih =>
    intro m
    simp only [List.foldl_cons, mergeStep]
    by_cases hc : c.1 = "Time"
    · rw [if_pos hc]
      exact ih m
    · rw [if_neg hc]
      rw [ih _]
      exact getCol?_setCol_ne m c.1 "Time" _ (Ne.symm hc)

theorem foldl_mergeStep_chan (xs xp : List ℚ) :
    ∀ (gcols : List (String × List ℚ)) (m : Table) (g : String) (v : List ℚ),
      (gcols.map Prod.fst).Nodup → (g, v) ∈ gcols → g ≠ "Time" →
      (gcols.foldl (mergeStep xs xp) m).getCol? g =
        some (npInterp xs xp v) := by
  intro gcols
  induction gcols with
  | nil => intro m g v _ hmem _; cases hmem
  | cons c gcols ih =>
    intro m g v hnd hmem hg
    have hnd' : c.1 ∉ gcols.map Prod.fst ∧ (gcols.map Prod.fst).Nodup := by
      rw [List.map_cons, List.nodup_cons] at hnd
      exact hnd
    rcases List.mem_cons.mp hmem with heq | hmem'
    · subst heq
      simp only [List.foldl_cons, mergeStep]
      rw [if_neg hg]
      rw [foldl_mergeStep_untouched xs xp gcols _ g ?hrest]
      case hrest =>
        intro d hd he
        have hdm : d.1 ∈ gcols.map Prod.fst := List.mem_map_of_mem Prod.fst hd
        rw [he] at hdm
        exact hnd'.1 hdm
      exact getCol?_setCol_self m g (npInterp xs xp v)
    · simp only [List.foldl_cons]
      exact ih _ g v hnd'.2 hmem' hg

theorem rename_getCol_time :
    ∀ (cols : List (String × List ℚ)) (ta : String),
      (∀ n ∈ cols.map Prod.fst, containsStr "Time" n = true → n = ta) →
      ((Table.mk cols).renameCol ta "Time").getCol? "Time" =
        (Table.mk cols).getCol? ta := by
  intro cols
  induction cols with
  | nil => intro ta _; rfl
  | cons c cols ih =>
    intro ta h
    by_cases hc : c.1 = ta
    · simp only [Table.renameCol, List.map_cons, if_pos hc, Table.getCol?,
        List.find?_cons]
      rw [show (decide True) = true from rfl]
      rw [show (decide (c.1 = ta)) = true by simp [hc]]
      rfl
    · have hcT : c.1 ≠ "Time" := by
        intro he
        exact hc (h c.1 (List.mem_map_of_mem Prod.fst (by simp))
          (by rw [he]; decide))
      simp only [Table.renameCol, List.map_cons, if_neg hc, Table.getCol?,
        List.find?_cons]
      rw [show (decide (c.1 = "Time")) = false by simp [hcT]]
      rw [show (decide (c.1 = ta)) = false by simp [hc]]
      have := ih ta (fun n hn hcon =>
        h n (by simp only [List.map_cons]; exact List.mem_cons_of_mem _ hn) hcon)
      simpa [Table.renameCol, Table.getCol?] using this

theorem rename_names (cols : List (String × List ℚ)) (old new : String) :
    ((Table.mk cols).renameCol old new).cols.map Prod.fst =
      (cols.map Prod.fst).map (fun n => if n = old then new else n) := by
  induction cols with
  | nil => rfl
  | cons c cols ih =>
    by_cases hc : c.1 = old
    · simpa [Table.renameCol, hc] using ih
    · simpa [Table.renameCol, hc] using ih

theorem rename_nodup (cols : List (String × List ℚ)) (tg : String)
    (hnd : (cols.map Prod.fst).Nodup)
    (h : ∀ n ∈ cols.map Prod.fst, containsStr "Time" n = true → n = tg) :
    (((Table.mk cols).renameCol tg "Time").cols.map Prod.fst).Nodup := by
  rw [rename_names]
  refine List.Nodup.map_on ?_ hnd
  intro a ha b hb hab
  by_cases h1 : a = tg <;> by_cases h2 : b = tg
  · rw [h1, h2]
  · rw [if_pos h1, if_neg h2] at hab
    exact absurd (h b hb (by rw [← hab]; decide)) h2
  · rw [if_neg h1, if_pos h2] at hab
    exact absurd (h a ha (by rw [hab]; decide)) h1
  · rwa [if_neg h1, if_neg h2] at hab

/-! ## Lemmas about the trapezoidal integrator -/

theorem cumtrapzFrom_length (ts : List ℚ) :
    ∀ (vs : List ℚ) (acc t0 v0 : ℚ), ts.length = vs.length →
      (cumtrapzFrom acc t0 v0 ts vs).length = ts.length := by
  induction ts with
  | nil => intro vs acc t0 v0 _; simp [cumtrapzFrom]
  | cons t1 ts ih =>
    intro vs acc t0 v0 h
    cases vs with
    | nil => simp at h
    | cons v1 vs =>
      simp only [cumtrapzFrom, List.length_cons]
      rw [ih vs _ t1 v1 (by simpa using h)]

theorem cumtrapzFrom_rec (ts : List ℚ) :
    ∀ (vs : List ℚ) (acc t0 v0 : ℚ) (i : ℕ), ts.length = vs.length →
      i + 1 < (acc :: cumtrapzFrom acc t0 v0 ts vs).length →
      (acc :: cumtrapzFrom acc t0 v0 ts vs).getD (i + 1) 0 =
        (acc :: cumtrapzFrom acc t0 v0 ts vs).getD i 0 +
          ((v0 :: vs).getD (i + 1) 0 + (v0 :: vs).getD i 0) / 2 *
            ((t0 :: ts).getD (i + 1) 0 - (t0 :: ts).getD i 0) := by
  induction ts with
  | nil => intro vs acc t0 v0 i _ hi; simp [cumtrapzFrom] at hi
  | cons t1 ts ih =>
    intro vs acc t0 v0 i h hi
    cases vs with
    | nil => simp at h
    | cons v1 vs =>
      have h' : ts.length = vs.length := by simpa using h
      cases i with
      | zero =>
        simp only [cumtrapzFrom, List.getD_cons_succ, List.getD_cons_zero]
        ring
      | succ i =>
        have := ih vs (acc + (v0 + v1) / 2 * (t1 - t0)) t1 v1 i h'
          (by simpa [cumtrapzFrom] using hi)
        simpa [cumtrapzFrom] using this

theorem cumulativeTrapezoid_spec (v t : List ℚ) (h : v.length = t.length) :
    TrapezoidRec t v (cumulativeTrapezoid v t) := by
  cases v with
  | nil =>
    cases t <;> exact ⟨rfl, rfl, by intro i hi; simp [cumulativeTrapezoid] at hi⟩
  | cons v0 vs =>
    cases t with
    | nil => simp at h
    | cons t0 ts =>
      have h' : ts.length = vs.length := by simpa using h.symm
      refine ⟨?_, rfl, ?_⟩
      · simp [cumulativeTrapezoid, cumtrapzFrom_length ts vs 0 t0 v0 h', h']
      · intro i hi
        exact cumtrapzFrom_rec ts vs 0 t0 v0 i h' hi

/-- C5: the cumulative integral computed by the drift (velocity) analysis
and the heading analysis satisfies `integral[0] = 0` and
`integral[i] = integral[i-1] + (v[i]+v[i-1])/2 * (t[i]-t[i-1])` — the
standard cumulative trapezoidal rule — both for the raw and for the
bias-corrected channel. -/
theorem C5_integrator_trapezoid :
    (∀ (df : Table) (bias : List (String × ℚ)) (time vraw vcorr : List ℚ)
      (col : String),
      analyzeDrift df bias = .ok (time, vraw, vcorr) →
      findChannel df "Acceleration y" = some col →
      (df.getColD col).length = time.length →
      TrapezoidRec time (df.getColD col) vraw ∧
      TrapezoidRec time
        ((df.getColD col).map (fun a => a - biasGet bias col)) vcorr) ∧
    (∀ (df : Table) (bias : List (String × ℚ)) (time angle : List ℚ)
      (col : String),
      analyzeHeading df bias = .ok (time, angle) →
      findChannel df "Gyroscope z" = some col →
      (df.getColD col).length = time.length →
      TrapezoidRec time
        ((df.getColD col).map (fun g => g - biasGet bias col)) angle) := by
  constructor
  · intro df bias time vraw vcorr col hok hchan hlen
    simp only [analyzeDrift, hchan] at hok
    by_cases hemp : (df.getColD "Time").isEmpty
    · simp [hemp] at hok
    · simp only [Bool.not_eq_true] at hemp
      simp only [hemp, Bool.false_eq_true, if_false, Except.ok.injEq,
        Prod.mk.injEq] at hok
      obtain ⟨ht, hr, hc⟩ := hok
      subst ht hr hc
      constructor
      · exact cumulativeTrapezoid_spec _ _ hlen
      · exact cumulativeTrapezoid_spec _ _ (by simpa using hlen)
  · intro df bias time angle col hok hchan hlen
    simp only [analyzeHeading, hchan] at hok
    by_cases hemp : (df.getColD "Time").isEmpty
    · simp [hemp] at hok
    · simp only [Bool.not_eq_true] at hemp
      simp only [hemp, Bool.false_eq_true, if_false, Except.ok.injEq,
        Prod.mk.injEq] at hok
      obtain ⟨ht, ha⟩ := hok
      subst ht ha
      exact cumulativeTrapezoid_spec _ _ (by simpa using hlen)

/-- Witness for C5 at a concrete trial: time axis (0, 1, 3), forward
acceleration (2, 4, 6), empty bias table. -/
theorem C5_witness :
    analyzeDrift ⟨[("Time", [0, 1, 3]), ("Acceleration y", [2, 4, 6])]⟩ [] =
      .ok ([0, 1, 3], [0, 3, 13], [0, 3, 13]) ∧
    TrapezoidRec [0, 1, 3]
      (Table.getColD ⟨[("Time", [0, 1, 3]), ("Acceleration y", [2, 4, 6])]⟩
        "Acceleration y") [0, 3, 13] :=
  ⟨rfl,
    (C5_integrator_trapezoid.1
      ⟨[("Time", [0, 1, 3]), ("Acceleration y", [2, 4, 6])]⟩ []
      [0, 1, 3] [0, 3, 13] [0, 3, 13] "Acceleration y"
      rfl (by decide) (by decide)).1⟩

/-- C6: when the selected channel's bias is 0, or the channel is absent
from the bias table (in particular when the bias table is empty), the
corrected velocity of the drift analysis equals the raw velocity at
every sample. -/
theorem C6_zero_bias_identity :
    ∀ (df : Table) (bias : List (String × ℚ)) (time vraw vcorr : List ℚ)
      (col : String),
      analyzeDrift df bias = .ok (time, vraw, vcorr) →
      findChannel df "Acceleration y" = some col →
      (bias.find? (fun p => p.1 = col) = none ∨ biasGet bias col = 0) →
      vcorr = vraw := by
  intro df bias time vraw vcorr col hok hchan hbias
  have hb : biasGet bias col = 0 := by
    rcases hbias with h0 | h0
    · simp [biasGet, h0]
    · exact h0
  simp only [analyzeDrift, hchan] at hok
  by_cases hemp : (df.getColD "Time").isEmpty
  · simp [hemp] at hok
  · simp only [Bool.not_eq_true] at hemp
    simp only [hemp, Bool.false_eq_true, if_false, Except.ok.injEq,
      Prod.mk.injEq] at hok
    obtain ⟨_, hr, hc⟩ := hok
    subst hr hc
    simp [hb]

/-- Witness for C6: with an empty bias table the corrected trace equals
the raw trace. -/
theorem C6_witness :
    analyzeDrift ⟨[("Time", [0, 1, 3]), ("Acceleration y", [1, 5, 7])]⟩ [] =
      .ok ([0, 1, 3], [0, 3, 15], [0, 3, 15]) ∧
    ([0, 3, 15] : List ℚ) = [0, 3, 15] :=
  ⟨rfl,
    C6_zero_bias_identity ⟨[("Time", [0, 1, 3]), ("Acceleration y", [1, 5, 7])]⟩
      [] [0, 1, 3] [0, 3, 15] [0, 3, 15] "Acceleration y"
      rfl (by decide) (Or.inl (by decide))⟩

/-- C9: every non-Time channel's Std field is the sample standard
deviation — its square `sampleVar` divides the sum of squared deviations
by `n - 1`, is NaN (`none`) for a single-row trial, and is in particular
never the substituted value 0 there. -/
theorem C9_sample_std :
    ∀ (df : Table) (col : String) (xs : List ℚ),
      (col, xs) ∈ df.cols → col ≠ "Time" →
      (col, listMean xs, sampleVar xs) ∈ trialStats df ∧
      (xs.length = 1 → sampleVar xs = none ∧ sampleVar xs ≠ some 0) ∧
      (∀ q, sampleVar xs = some q →
        2 ≤ xs.length ∧
        q * ((xs.length : ℚ) - 1) =
          (xs.map (fun x => (x - listMean xs) ^ 2)).sum) := by
  intro df col xs hmem hcol
  refine ⟨?_, ?_, ?_⟩
  · simp only [trialStats, List.mem_filterMap]
    exact ⟨(col, xs), hmem, by simp [hcol]⟩
  · intro h1
    constructor
    · simp [sampleVar, h1]
    · simp [sampleVar, h1]
  · intro q hq
    by_cases hle : xs.length ≤ 1
    · rw [sampleVar, if_pos hle] at hq
      exact absurd hq (by simp)
    · have h2 : 2 ≤ xs.length := by omega
      refine ⟨h2, ?_⟩
      rw [sampleVar, if_neg hle] at hq
      have hne : ((xs.length : ℚ) - 1) ≠ 0 := by
        have : (1 : ℚ) < (xs.length : ℚ) := by exact_mod_cast by omega
        linarith
      rw [← Option.some.inj hq]
      field_simp

/-- Witness for C9 at a single-row trial and at a two-row trial. -/
theorem C9_witness :
    (("Acceleration x", listMean [(5 : ℚ)], sampleVar [(5 : ℚ)]) ∈
      trialStats ⟨[("Time", [0]), ("Acceleration x", [5])]⟩ ∧
      sampleVar [(5 : ℚ)] = none) ∧
    sampleVar [(2 : ℚ), 4] = some 2 :=
  ⟨⟨(C9_sample_std ⟨[("Time", [0]), ("Acceleration x", [5])]⟩
      "Acceleration x" [5] (by decide) (by decide)).1,
    ((C9_sample_std ⟨[("Time", [0]), ("Acceleration x", [5])]⟩
      "Acceleration x" [5] (by decide) (by decide)).2.1 rfl).1⟩,
  by decide⟩

/-! ## Lemmas about trimming -/

theorem foldl_min_le (l : List ℚ) :
    ∀ a : ℚ, (l.foldl min a ≤ a ∧ ∀ x ∈ l, l.foldl min a ≤ x) := by
  induction l with
  | nil => intro a; exact ⟨le_refl a, by simp⟩
  | cons h t ih =>
    intro a
    obtain ⟨h1, h2⟩ := ih (min a h)
    refine ⟨le_trans h1 (min_le_left a h), ?_⟩
    intro x hx
    rcases List.mem_cons.mp hx with rfl | hx
    · exact le_trans h1 (min_le_right a x)
    · exact h2 x hx

theorem foldl_max_ge (l : List ℚ) :
    ∀ a : ℚ, (a ≤ l.foldl max a ∧ ∀ x ∈ l, x ≤ l.foldl max a) := by
  induction l with
  | nil => intro a; exact ⟨le_refl a, by simp⟩
  | cons h t ih =>
    intro a
    obtain ⟨h1, h2⟩ := ih (max a h)
    refine ⟨le_trans (le_max_left a h) h1, ?_⟩
    intro x hx
    rcases List.mem_cons.mp hx with rfl | hx
    · exact le_trans (le_max_right a x) h1
    · exact h2 x hx

theorem colMin_le {l : List ℚ} {x : ℚ} (hx : x ∈ l) : colMin l ≤ x := by
  cases l with
  | nil => cases hx
  | cons h t =>
    rcases List.mem_cons.mp hx with rfl | hx
    · exact (foldl_min_le t x).1
    · exact (foldl_min_le t h).2 x hx

theorem le_colMax {l : List ℚ} {x : ℚ} (hx : x ∈ l) : x ≤ colMax l := by
  cases l with
  | nil => cases hx
  | cons h t =>
    rcases List.mem_cons.mp hx with rfl | hx
    · exact (foldl_max_ge t x).1
    · exact (foldl_max_ge t h).2 x hx

theorem maskFilter_map_zip (p : ℚ → Bool) :
    ∀ (ts vs : List ℚ),
      maskFilter (ts.map p) vs =
        ((ts.zip vs).filter (fun q => p q.1)).map Prod.snd := by
  intro ts
  induction ts with
  | nil => intro vs; simp [maskFilter]
  | cons t ts ih =>
    intro vs
    cases vs with
    | nil => simp [maskFilter]
    | cons v vs =>
      simp only [List.map_cons, maskFilter, List.zip_cons_cons, List.filter_cons]
      by_cases hp : p t
      · simpa [hp, maskFilter] using ih vs
      · simpa [hp, maskFilter] using ih vs

theorem maskFilter_self (p : ℚ → Bool) :
    ∀ ts : List ℚ, maskFilter (ts.map p) ts = ts.filter p := by
  intro ts
  induction ts with
  | nil => simp [maskFilter]
  | cons t ts ih =>
    simp only [List.map_cons, maskFilter, List.zip_cons_cons, List.filter_cons]
    by_cases hp : p t
    · simpa [hp, maskFilter] using ih
    · simpa [hp, maskFilter] using ih

theorem getCol?_mapVals (cols : List (String × List ℚ))
    (g : List ℚ → List ℚ) (c : String) :
    (Table.mk (cols.map (fun d => (d.1, g d.2)))).getCol? c =
      ((Table.mk cols).getCol? c).map g := by
  induction cols with
  | nil => simp [Table.getCol?]
  | cons d cols ih =>
    by_cases hd : d.1 = c
    · simp [Table.getCol?, List.find?_cons, hd]
    · simp only [Table.getCol?, List.map_cons, List.find?_cons] at ih ⊢
      simp only [hd, decide_eq_true_eq, if_neg] at ih ⊢
      simpa [hd] using ih

theorem trim_keep_iff (tmin tmax s x : ℚ) (hlo : tmin ≤ x) (hhi : x ≤ tmax) :
    (decide (tmin + s ≤ x) && decide (x ≤ tmax - s)) =
      decide ¬(|x - tmin| < s ∨ |x - tmax| < s) := by
  rw [Bool.and_eq_decide, decide_eq_decide]
  rw [abs_of_nonneg (by linarith), abs_of_nonpos (by linarith)]
  constructor
  · rintro ⟨h1, h2⟩ (h3 | h3) <;> linarith
  · intro h
    push_neg at h
    exact ⟨by linarith [h.1], by linarith [h.2]⟩

/-- C7: trimming removes exactly the rows whose timestamp is within
`trim_seconds` of the series minimum or maximum — stated for the time
column, and row-for-row for every column — and trimming with
`trim_seconds = 0` is the identity. -/
theorem C7_trim_characterization :
    ∀ (tbl : Table) (s : ℚ), 0 ≤ s →
      ((trimTable s tbl).getColD "Time" =
        (tbl.getColD "Time").filter (fun x =>
          decide ¬(|x - colMin (tbl.getColD "Time")| < s ∨
            |x - colMax (tbl.getColD "Time")| < s))) ∧
      (∀ (c : String) (vs : List ℚ), tbl.getCol? c = some vs →
        (trimTable s tbl).getCol? c =
          some ((((tbl.getColD "Time").zip vs).filter (fun q =>
            decide ¬(|q.1 - colMin (tbl.getColD "Time")| < s ∨
              |q.1 - colMax (tbl.getColD "Time")| < s))).map Prod.snd)) ∧
      ((∀ c ∈ tbl.cols, c.2.length = (tbl.getColD "Time").length) →
        trimTable 0 tbl = tbl) := by
  intro tbl s _
  obtain ⟨cols⟩ := tbl
  refine ⟨?_, ?_, ?_⟩
  · cases hcol : (Table.mk cols).getCol? "Time" with
    | none =>
      simp [trimTable, Table.getColD, getCol?_mapVals, hcol]
    | some ts =>
      simp only [trimTable, Table.getColD, getCol?_mapVals, hcol,
        Option.map_some', Option.getD_some, maskFilter_self]
      refine List.filter_congr ?_
      intro x hx
      exact trim_keep_iff _ _ s x (colMin_le hx) (le_colMax hx)
  · intro c vs hvs
    simp only [trimTable, getCol?_mapVals, hvs, Option.map_some',
      Option.some.injEq]
    rw [maskFilter_map_zip]
    refine congrArg (List.map Prod.snd) (List.filter_congr ?_)
    intro q hq
    exact trim_keep_iff _ _ s q.1 (colMin_le (List.of_mem_zip hq).1)
      (le_colMax (List.of_mem_zip hq).1)
  · intro hlen
    have hmask : ∀ c ∈ cols,
        (c.1, maskFilter ((Table.getColD ⟨cols⟩ "Time").map (fun x =>
          decide (colMin (Table.getColD ⟨cols⟩ "Time") + 0 ≤ x) &&
          decide (x ≤ colMax (Table.getColD ⟨cols⟩ "Time") - 0))) c.2) = c := by
      intro c hc
      rw [maskFilter_map_zip]
      have hall : ∀ q ∈ (Table.getColD ⟨cols⟩ "Time").zip c.2,
          (decide (colMin (Table.getColD ⟨cols⟩ "Time") + 0 ≤ q.1) &&
           decide (q.1 ≤ colMax (Table.getColD ⟨cols⟩ "Time") - 0)) = true := by
        intro q hq
        have h1 := colMin_le (List.of_mem_zip hq).1
        have h2 := le_colMax (List.of_mem_zip hq).1
        simp only [add_zero, sub_zero, Bool.and_eq_true, decide_eq_true_eq]
        exact ⟨h1, h2⟩
      rw [List.filter_eq_self.mpr hall]
      rw [List.map_snd_zip _ _ (le_of_eq (hlen c hc))]
    show Table.mk (cols.map _) = Table.mk cols
    refine congrArg Table.mk ?_
    calc cols.map _ = cols.map (fun c => c) := List.map_congr_left hmask
      _ = cols := by simp

/-- Witness for C7 at a concrete merged series with times 0..3 and a 1 s
trim: the surviving timestamps are exactly 1 and 2, and a 0 s trim is
the identity. -/
theorem C7_witness :
    ((trimTable 1 ⟨[("Time", [0, 1, 2, 3]), ("Acceleration y", [5, 6, 7, 8])]⟩).getColD
        "Time" =
      (Table.getColD ⟨[("Time", [0, 1, 2, 3]), ("Acceleration y", [5, 6, 7, 8])]⟩
          "Time").filter (fun x =>
        decide ¬(|x - colMin (Table.getColD
            ⟨[("Time", [0, 1, 2, 3]), ("Acceleration y", [5, 6, 7, 8])]⟩ "Time")| < 1 ∨
          |x - colMax (Table.getColD
            ⟨[("Time", [0, 1, 2, 3]), ("Acceleration y", [5, 6, 7, 8])]⟩ "Time")| < 1))) ∧
    (trimTable 1 ⟨[("Time", [0, 1, 2, 3]), ("Acceleration y", [5, 6, 7, 8])]⟩).getColD
        "Time" = [1, 2] ∧
    trimTable 0 ⟨[("Time", [0, 1, 2, 3]), ("Acceleration y", [5, 6, 7, 8])]⟩ =
      ⟨[("Time", [0, 1, 2, 3]), ("Acceleration y", [5, 6, 7, 8])]⟩ :=
  ⟨(C7_trim_characterization
      ⟨[("Time", [0, 1, 2, 3]), ("Acceleration y", [5, 6, 7, 8])]⟩ 1 (by decide)).1,
    by decide,
    (C7_trim_characterization
      ⟨[("Time", [0, 1, 2, 3]), ("Acceleration y", [5, 6, 7, 8])]⟩ 0
      (by decide)).2.2 (by decide)⟩

/-! ## Lemmas about the statistics aggregator -/

theorem alpha_prefix_le_takeWhile :
    ∀ (h s : List Char), h <+: s → (∀ c ∈ h, c.isAlpha) →
      h <+: s.takeWhile Char.isAlpha := by
  intro h
  induction h with
  | nil => intro s _ _; exact List.nil_prefix
  | cons c h ih =>
    intro s hpre halpha
    obtain ⟨t, rfl⟩ := hpre
    have hc : c.isAlpha := halpha c (List.mem_cons_self _ _)
    simp only [List.cons_append, List.takeWhile_cons, hc, if_true]
    rw [List.cons_prefix_cons]
    refine ⟨rfl, ih _ ⟨t, rfl⟩ ?_⟩
    intro d hd
    exact halpha d (List.mem_cons_of_mem c hd)

theorem maxAlphaRun_takeWhile (s : List Char) :
    MaxAlphaRun s (s.takeWhile Char.isAlpha) := by
  refine ⟨List.takeWhile_prefix _, ?_, ?_⟩
  · intro c hc
    exact List.mem_takeWhile_imp hc
  · intro h hpre halpha
    exact (alpha_prefix_le_takeWhile h s hpre halpha).length_le

theorem zipWith_add_getD :
    ∀ (a b : List ℚ) (i : ℕ), i < a.length → i < b.length →
      (List.zipWith (· + ·) a b).getD i 0 = a.getD i 0 + b.getD i 0 := by
  intro a
  induction a with
  | nil => intro b i hi _; simp at hi
  | cons x a ih =>
    intro b i hi hib
    cases b with
    | nil => simp at hib
    | cons y b =>
      cases i with
      | zero => simp
      | succ i =>
        simp only [List.zipWith_cons_cons, List.getD_cons_succ]
        exact ih b i (by simpa using hi) (by simpa using hib)

theorem sumVecs_length :
    ∀ (rows : List (List ℚ)) (n : ℕ), (∀ v ∈ rows, v.length = n) →
      rows ≠ [] → (sumVecs rows).length = n := by
  intro rows
  induction rows with
  | nil => intro n _ hne; exact absurd rfl hne
  | cons v vs ih =>
    intro n hlen _
    cases vs with
    | nil => simpa [sumVecs] using hlen v (by simp)
    | cons w ws =>
      have hv : v.length = n := hlen v (by simp)
      have hrest : ∀ u ∈ w :: ws, u.length = n := by
        intro u hu; exact hlen u (List.mem_cons_of_mem v hu)
      show (List.zipWith (· + ·) v (sumVecs (w :: ws))).length = n
      rw [List.length_zipWith, hv, ih n hrest (by simp)]
      simp

theorem sumVecs_getD :
    ∀ (rows : List (List ℚ)) (n i : ℕ), (∀ v ∈ rows, v.length = n) → i < n →
      (sumVecs rows).getD i 0 = (rows.map (fun v => v.getD i 0)).sum := by
  intro rows
  induction rows with
  | nil => intro n i _ _; simp [sumVecs]
  | cons v vs ih =>
    intro n i hlen hi
    cases vs with
    | nil => simp [sumVecs]
    | cons w ws =>
      have hv : v.length = n := hlen v (by simp)
      have hrest : ∀ u ∈ w :: ws, u.length = n := by
        intro u hu; exact hlen u (List.mem_cons_of_mem v hu)
      have hslen : (sumVecs (w :: ws)).length = n :=
        sumVecs_length (w :: ws) n hrest (by simp)
      show (List.zipWith (· + ·) v (sumVecs (w :: ws))).getD i 0 = _
      rw [zipWith_add_getD v _ i (hv ▸ hi) (hslen ▸ hi)]
      rw [ih n i hrest hi]
      simp

theorem getD_map_div (c : ℚ) :
    ∀ (l : List ℚ) (i : ℕ),
      (l.map (fun x => x / c)).getD i 0 = l.getD i 0 / c := by
  intro l
  induction l with
  | nil => intro i; simp
  | cons x l ih =>
    intro i
    cases i with
    | zero => simp
    | succ i => simpa using ih i

theorem insertAsc_perm (s : String) :
    ∀ l : List String, (insertAsc s l).Perm (s :: l) := by
  intro l
  induction l with
  | nil => exact List.Perm.refl _
  | cons x xs ih =>
    by_cases hlt : x.data < s.data
    · simp only [insertAsc, hlt, if_true]
      exact (ih.cons x).trans (List.Perm.swap s x xs)
    · simp only [insertAsc, hlt, if_false]
      exact List.Perm.refl _

theorem insertAsc_pairwise (s : String) :
    ∀ l : List String, l.Pairwise (fun a b => a.data < b.data) → s ∉ l →
      (insertAsc s l).Pairwise (fun a b => a.data < b.data) := by
  intro l
  induction l with
  | nil => intro _ _; simp [insertAsc]
  | cons x xs ih =>
    intro hpair hmem
    obtain ⟨hx, hxs⟩ := List.pairwise_cons.mp hpair
    have hsx : s ≠ x := fun h => hmem (h ▸ List.mem_cons_self _ _)
    have hsxs : s ∉ xs := fun h => hmem (List.mem_cons_of_mem x h)
    by_cases hlt : x.data < s.data
    · simp only [insertAsc, hlt, if_true]
      refine List.pairwise_cons.mpr ⟨?_, ih hxs hsxs⟩
      intro y hy
      rcases List.mem_cons.mp ((insertAsc_perm s xs).mem_iff.mp hy) with rfl | hy'
      · exact hlt
      · exact hx y hy'
    · simp only [insertAsc, hlt, if_false]
      have hdata : s.data ≠ x.data := by
        intro h
        apply hsx
        cases s
        cases x
        exact congrArg String.mk h
      have hslt : s.data < x.data := lt_of_le_of_ne (not_lt.mp hlt) hdata
      refine List.pairwise_cons.mpr ⟨?_, hpair⟩
      intro y hy
      rcases List.mem_cons.mp hy with rfl | hy'
      · exact hslt
      · exact lt_trans hslt (hx y hy')

theorem sortAsc_perm : ∀ l : List String, (sortAsc l).Perm l := by
  intro l
  induction l with
  | nil => exact List.Perm.refl _
  | cons x xs ih =>
    exact (insertAsc_perm x (sortAsc xs)).trans (ih.cons x)

theorem sortAsc_pairwise :
    ∀ l : List String, l.Nodup →
      (sortAsc l).Pairwise (fun a b => a.data < b.data) := by
  intro l
  induction l with
  | nil => intro _; simp [sortAsc]
  | cons x xs ih =>
    intro hnd
    obtain ⟨hx, hxs⟩ := List.nodup_cons.mp hnd
    refine insertAsc_pairwise x (sortAsc xs) (ih hxs) ?_
    intro hmem
    exact hx ((sortAsc_perm xs).mem_iff.mp hmem)

/-- C8: the group key is the maximal leading alphabetic run of the trial
name ("Other" when there is none), and every group-average record
averages its members' numeric fields pointwise: a size-1 group averages
to its single member, and means 2 and 4 average to 3 in the synthesized
bump_avg row. -/
theorem C8_grouping_and_averages :
    (∀ s : String,
      MaxAlphaRun s.data (s.data.takeWhile Char.isAlpha) ∧
      (s.data.takeWhile Char.isAlpha ≠ [] →
        (groupKey s).data = s.data.takeWhile Char.isAlpha) ∧
      (s.data.takeWhile Char.isAlpha = [] → groupKey s = "Other")) ∧
    (∀ (stats : List StatRec) (k : String) (r : StatRec),
      stats.filter (fun x => groupKey x.filename = k) = [r] →
      mkAvgRow stats k = ⟨k ++ "_avg", r.vals⟩) ∧
    (∀ (stats : List StatRec) (k : String) (n i : ℕ),
      (∀ v ∈ (stats.filter (fun x => groupKey x.filename = k)).map StatRec.vals,
        v.length = n) →
      i < n →
      (mkAvgRow stats k).vals.getD i 0 =
        (((stats.filter (fun x => groupKey x.filename = k)).map
            StatRec.vals).map (fun v => v.getD i 0)).sum /
          ((stats.filter (fun x => groupKey x.filename = k)).length : ℚ)) ∧
    saveFormattedExcel [⟨"bump1", [2]⟩, ⟨"bump2", [4]⟩] =
      [⟨"bump1", [2]⟩, ⟨"bump2", [4]⟩, ⟨"bump_avg", [3]⟩] := by
  refine ⟨?_, ?_, ?_, by decide⟩
  · intro s
    refine ⟨maxAlphaRun_takeWhile s.data, ?_, ?_⟩
    · intro hne
      simp only [groupKey, List.isEmpty_iff]
      rw [if_neg hne]
    · intro he
      simp only [groupKey, List.isEmpty_iff]
      rw [if_pos he]
  · intro stats k r hfil
    simp only [mkAvgRow, hfil]
    show StatRec.mk _ (avgVals [r.vals]) = _
    simp [avgVals, sumVecs]
  · intro stats k n i hlen hi
    simp only [mkAvgRow, avgVals]
    rw [getD_map_div, sumVecs_getD _ n i hlen hi, List.length_map]

/-- Witness for C8: a size-1 group ("solo") averages to itself. -/
theorem C8_witness :
    ([⟨"solo", [7]⟩] : List StatRec).filter
        (fun x => groupKey x.filename = "solo") = [⟨"solo", [7]⟩] ∧
    mkAvgRow [⟨"solo", [7]⟩] "solo" = ⟨"solo" ++ "_avg", [7]⟩ :=
  ⟨by decide,
    C8_grouping_and_averages.2.1 [⟨"solo", [7]⟩] "solo" ⟨"solo", [7]⟩ (by decide)⟩

/-- C3 counterexample: with trials "zebra1" then "apple1" the code emits
the group-average rows in ascending key order (apple_avg before
zebra_avg), not in first-appearance order (zebra_avg before apple_avg)
as the claim states. -/
theorem C3_order_counterexample :
    saveFormattedExcel [⟨"zebra1", [1]⟩, ⟨"apple1", [2]⟩] =
      [⟨"zebra1", [1]⟩, ⟨"apple1", [2]⟩, ⟨"apple_avg", [2]⟩, ⟨"zebra_avg", [1]⟩] ∧
    saveFormattedExcel [⟨"zebra1", [1]⟩, ⟨"apple1", [2]⟩] ≠
      [⟨"zebra1", [1]⟩, ⟨"apple1", [2]⟩, ⟨"zebra_avg", [1]⟩, ⟨"apple_avg", [2]⟩] := by
  constructor
  · decide
  · decide

/-- C3 as amended: the report still lists all raw per-trial rows first in
source order, followed by one group-average row per distinct group key —
but the average rows appear in ascending lexicographic key order (pandas
`groupby` sorts its keys), not in order of first appearance. -/
theorem C3_report_order_amended :
    ∀ stats : List StatRec, stats ≠ [] →
      (saveFormattedExcel stats).take stats.length = stats ∧
      ((saveFormattedExcel stats).drop stats.length).map StatRec.filename =
        (groupKeys stats).map (fun k => k ++ "_avg") ∧
      (groupKeys stats).Pairwise (fun a b => a.data < b.data) ∧
      (groupKeys stats).Perm
        (stats.map (fun r => groupKey r.filename)).dedup := by
  intro stats hne
  have hemp : stats.isEmpty = false := by
    cases stats with
    | nil => exact absurd rfl hne
    | cons a l => rfl
  refine ⟨?_, ?_, ?_, ?_⟩
  · simp only [saveFormattedExcel, hemp, Bool.false_eq_true, if_false]
    exact List.take_left stats _
  · simp only [saveFormattedExcel, hemp, Bool.false_eq_true, if_false]
    rw [List.drop_left stats _, List.map_map]
    rfl
  · exact sortAsc_pairwise _ (List.nodup_dedup _)
  · exact sortAsc_perm _

/-- Witness for C3's amended theorem at a two-trial batch. -/
theorem C3_amended_witness :
    ([⟨"zebra1", [1]⟩, ⟨"apple1", [2]⟩] : List StatRec) ≠ [] ∧
    (saveFormattedExcel [⟨"zebra1", [1]⟩, ⟨"apple1", [2]⟩]).take 2 =
      [⟨"zebra1", [1]⟩, ⟨"apple1", [2]⟩] :=
  ⟨by decide,
    (C3_report_order_amended [⟨"zebra1", [1]⟩, ⟨"apple1", [2]⟩] (by decide)).1⟩

/-! ## Batch error handling -/

/-- C1 counterexample: a batch of two "straight" trials where the first
file's accelerometer sheet has no "Acceleration y" column.  The channel
lookup inside `analyze_drift` raises an uncaught IndexError that aborts
the whole run, so the second (healthy) trial is never processed — even
though it is processed fine when it is the only file. -/
theorem C1_abort_counterexample :
    runAdvanced [] [("straight1", noChannelFile), ("straight2", goodFile)] =
      .error "IndexError: no column matching Acceleration y" ∧
    runAdvanced [] [("straight2", goodFile)] = .ok ["straight2"] :=
  ⟨rfl, rfl⟩

/-- C1 as amended: failures caught inside the loader (unreadable file,
missing time column — `load_phyphox_xls` returns None) are isolated: the
trial is skipped and the rest of the batch is processed exactly as if
the file were absent.  But a missing analysis channel is not signalled
recoverably: `analyze_drift`'s bare `[...][0]` lookup raises an
IndexError that propagates out of the batch loop and aborts the run. -/
theorem C1_error_isolation_amended :
    (∀ (bias : List (String × ℚ)) (pre rest : List (String × RawFile))
      (f : String) (raw : RawFile),
      loadAdvanced raw = none →
      runAdvanced bias (pre ++ (f, raw) :: rest) =
        runAdvanced bias (pre ++ rest)) ∧
    (∀ (bias : List (String × ℚ)) (rest : List (String × RawFile))
      (f : String) (raw : RawFile) (df : Table),
      containsStr "stationary" (strToLower f) = false →
      (containsStr "straight" (strToLower f) ||
        containsStr "reverse" (strToLower f)) = true →
      loadAdvanced raw = some df →
      findChannel df "Acceleration y" = none →
      runAdvanced bias ((f, raw) :: rest) =
        .error "IndexError: no column matching Acceleration y") := by
  constructor
  · intro bias pre rest f raw hload
    induction pre with
    | nil =>
      simp only [List.nil_append, runAdvanced, hload]
      rw [ite_self]
    | cons p pre ih =>
      obtain ⟨g, r⟩ := p
      simp only [List.cons_append, runAdvanced, List.append_eq] at ih ⊢
      rw [ih]
  · intro bias rest f raw df hstat hroute hload hchan
    simp only [runAdvanced, hstat, hroute, hload, analyzeDrift, hchan]
    simp

/-- Witness for C1's amended theorem: an unreadable file in front of a
healthy batch is skipped without affecting it. -/
theorem C1_amended_witness :
    loadAdvanced RawFile.unreadable = none ∧
    runAdvanced [] [("bad", RawFile.unreadable), ("straight2", goodFile)] =
      runAdvanced [] [("straight2", goodFile)] :=
  ⟨rfl,
    C1_error_isolation_amended.1 [] [] [("straight2", goodFile)] "bad"
      RawFile.unreadable rfl⟩

/-- C2 counterexample: a readable trial spanning only half a second.
The advanced loader trims everything away and returns the silently
empty table — `some` of a zero-row frame — rather than the explicit
"no data" result (`None`) the claim requires, so the main loop's
`df is None` check does not skip the trial. -/
theorem C2_silent_empty_counterexample :
    loadAdvanced emptyTrimFile =
      some ⟨[("Time", []), ("Acceleration y", []), ("Gyroscope z", [])]⟩ ∧
    loadAdvanced emptyTrimFile ≠ none := by
  refine ⟨by decide, by decide⟩

/-- C2 as amended: in `basic_analysis` the processing step does return
the explicit `None` when trimming empties the series, and the caller
skips the trial; in `advanced_analysis` the loader instead returns the
empty trimmed table and the trial is not skipped. -/
theorem C2_empty_trim_amended :
    (∀ (df : Table) (f : String),
      (trimTable TRIM_SECONDS df).getColD "Time" = [] →
      processAndPlot df f = .ok none) ∧
    (∀ (rest : List (String × RawFile)) (f : String) (raw : RawFile)
      (df : Table),
      loadBasic raw = some df →
      (trimTable TRIM_SECONDS df).getColD "Time" = [] →
      runBasic ((f, raw) :: rest) = runBasic rest) := by
  have h1 : ∀ (df : Table) (f : String),
      (trimTable TRIM_SECONDS df).getColD "Time" = [] →
      processAndPlot df f = .ok none := by
    intro df f hempty
    simp only [processAndPlot, hempty]
    simp
  refine ⟨h1, ?_⟩
  intro rest f raw df hload hempty
  simp only [runBasic, hload, h1 df f hempty]

/-- Witness for C2's amended theorem: a half-second trial is skipped by
the basic pipeline. -/
theorem C2_amended_witness :
    (trimTable TRIM_SECONDS
      ⟨[("Time", [0, 1]), ("Acceleration x", [5, 5])]⟩).getColD "Time" = [] ∧
    processAndPlot ⟨[("Time", [0, 1]), ("Acceleration x", [5, 5])]⟩ "short" =
      .ok none :=
  ⟨by decide,
    C2_empty_trim_amended.1 ⟨[("Time", [0, 1]), ("Acceleration x", [5, 5])]⟩
      "short" (by decide)⟩

/-! ## C4 and C10: the merge -/

/-- C4: for well-formed sheets (unique time column per sheet, distinct
gyroscope column names, strictly increasing gyroscope times), the merged
table's time axis is exactly the accelerometer's time axis, every merged
gyroscope channel is `np.interp` of the gyroscope samples evaluated at
the accelerometer timestamps, and `interp` itself realises exact linear
interpolation between two neighbouring samples and clamps to the nearest
boundary sample at or beyond the sample range. -/
theorem C4_merge_time_and_interpolation :
    (∀ (acc gyro : Table) (ta tg : String),
      UniqueTimeCol acc ta → UniqueTimeCol gyro tg →
      (gyro.cols.map Prod.fst).Nodup →
      ((mergeTables (acc.renameCol ta "Time")
          (gyro.renameCol tg "Time")).getColD "Time" = acc.getColD ta ∧
        ∀ (g : String) (v : List ℚ),
          (g, v) ∈ (gyro.renameCol tg "Time").cols → g ≠ "Time" →
          (mergeTables (acc.renameCol ta "Time")
              (gyro.renameCol tg "Time")).getCol? g =
            some (npInterp (acc.getColD ta) (gyro.getColD tg) v))) ∧
    (∀ (x : ℚ) (pre : List (ℚ × ℚ)) (a b : ℚ × ℚ) (suf : List (ℚ × ℚ)),
      List.Chain' (fun p r : ℚ × ℚ => p.1 < r.1) (pre ++ a :: b :: suf) →
      a.1 ≤ x → x ≤ b.1 →
      interp x (pre ++ a :: b :: suf) =
        a.2 + (b.2 - a.2) * (x - a.1) / (b.1 - a.1)) ∧
    (∀ (x : ℚ) (p : ℚ × ℚ) (pts : List (ℚ × ℚ)), x ≤ p.1 →
      interp x (p :: pts) = p.2) ∧
    (∀ (x : ℚ) (pre : List (ℚ × ℚ)) (q : ℚ × ℚ),
      List.Chain' (fun p r : ℚ × ℚ => p.1 < r.1) (pre ++ [q]) → q.1 ≤ x →
      interp x (pre ++ [q]) = q.2) := by
  haveI : IsTrans (ℚ × ℚ) (fun p r : ℚ × ℚ => p.1 < r.1) :=
    ⟨fun _ _ _ h1 h2 => lt_trans h1 h2⟩
  refine ⟨?_, ?_, ?_, ?_⟩
  · intro acc gyro ta tg hta htg hnd
    obtain ⟨hfa, hua⟩ := hta
    obtain ⟨hfg, hug⟩ := htg
    have hA : (acc.renameCol ta "Time").getCol? "Time" = acc.getCol? ta := by
      obtain ⟨acols⟩ := acc
      exact rename_getCol_time acols ta hua
    have hG : (gyro.renameCol tg "Time").getCol? "Time" = gyro.getCol? tg := by
      obtain ⟨gcols⟩ := gyro
      exact rename_getCol_time gcols tg hug
    have hGnd : (((gyro.renameCol tg "Time").cols).map Prod.fst).Nodup := by
      obtain ⟨gcols⟩ := gyro
      exact rename_nodup gcols tg hnd hug
    have hAD : (acc.renameCol ta "Time").getColD "Time" = acc.getColD ta := by
      rw [Table.getColD, hA]
      rfl
    have hGD : (gyro.renameCol tg "Time").getColD "Time" = gyro.getColD tg := by
      rw [Table.getColD, hG]
      rfl
    constructor
    · simp only [mergeTables, Table.getColD]
      rw [foldl_mergeStep_time, hA]
    · intro g v hmem hgT
      simp only [mergeTables]
      rw [foldl_mergeStep_chan _ _ _ _ g v hGnd hmem hgT]
      rw [hAD, hGD]
  · intro x pre a b suf hch ha hb
    exact interp_between x pre a b suf (List.chain'_iff_pairwise.mp hch) ha hb
  · exact interp_head_le
  · intro x pre q hch hq
    exact interp_last_le x pre q (List.chain'_iff_pairwise.mp hch) hq

/-- Witness for C4 at a concrete pair of sheets: the merged time axis is
the accelerometer's, and the gyroscope channel is interpolated onto it. -/
theorem C4_witness :
    UniqueTimeCol ⟨[("Time", [0, 1, 2]), ("Acceleration y", [1, 1, 1])]⟩
        "Time" ∧
    (mergeTables
        ((⟨[("Time", [0, 1, 2]), ("Acceleration y", [1, 1, 1])]⟩ :
          Table).renameCol "Time" "Time")
        ((⟨[("Time", [0, 2]), ("Gyroscope z", [0, 4])]⟩ :
          Table).renameCol "Time" "Time")).getColD "Time" =
      Table.getColD ⟨[("Time", [0, 1, 2]), ("Acceleration y", [1, 1, 1])]⟩
        "Time" :=
  ⟨by decide,
    ((C4_merge_time_and_interpolation.1
      ⟨[("Time", [0, 1, 2]), ("Acceleration y", [1, 1, 1])]⟩
      ⟨[("Time", [0, 2]), ("Gyroscope z", [0, 4])]⟩ "Time" "Time"
      (by decide) (by decide) (by decide)).1)⟩

theorem foldl_mergeStep_append (xs xp : List ℚ) :
    ∀ (gcols : List (String × List ℚ)) (m : Table),
      (gcols.map Prod.fst).Nodup →
      (∀ c ∈ gcols, c.1 ≠ "Time" → c.1 ∉ m.cols.map Prod.fst) →
      (gcols.foldl (mergeStep xs xp) m).cols =
        m.cols ++ (gcols.filter (fun c => c.1 ≠ "Time")).map
          (fun c => (c.1, npInterp xs xp c.2)) := by
  intro gcols
  induction gcols with
  | nil => intro m _ _; simp
  | cons c gcols ih =>
    intro m hnd hdisj
    have hnd' : c.1 ∉ gcols.map Prod.fst ∧ (gcols.map Prod.fst).Nodup := by
      rw [List.map_cons, List.nodup_cons] at hnd
      exact hnd
    by_cases hc : c.1 = "Time"
    · simp only [List.foldl_cons, mergeStep, if_pos hc]
      rw [ih m hnd'.2 (fun d hd hdT => hdisj d (List.mem_cons_of_mem c hd) hdT)]
      congr 1
      rw [List.filter_cons, if_neg (by simp [hc])]
    · simp only [List.foldl_cons, mergeStep, if_neg hc]
      have hcm : c.1 ∉ m.cols.map Prod.fst := hdisj c (by simp) hc
      have hanyf : ¬ (m.cols.any (fun d => d.1 = c.1) = true) := by
        rw [List.any_eq_true]
        rintro ⟨d, hd, he⟩
        have : d.1 ∈ m.cols.map Prod.fst := List.mem_map_of_mem Prod.fst hd
        rw [show d.1 = c.1 by simpa using he] at this
        exact hcm this
      have hset : m.setCol c.1 (npInterp xs xp c.2) =
          ⟨m.cols ++ [(c.1, npInterp xs xp c.2)]⟩ := by
        rw [Table.setCol, if_neg hanyf]
      rw [hset]
      rw [ih ⟨m.cols ++ [(c.1, npInterp xs xp c.2)]⟩ hnd'.2 ?hdisj2]
      case hdisj2 =>
        intro d hd hdT
        show d.1 ∉ (m.cols ++ [(c.1, npInterp xs xp c.2)]).map Prod.fst
        rw [List.map_append]
        rw [List.mem_append]
        rintro (h | h)
        · exact hdisj d (List.mem_cons_of_mem c hd) hdT h
        · have hdc : d.1 = c.1 := by simpa using h
          have : d.1 ∈ gcols.map Prod.fst := List.mem_map_of_mem Prod.fst hd
          rw [hdc] at this
          exact hnd'.1 this
      rw [List.append_assoc]
      congr 1
      rw [List.filter_cons, if_pos (by simp [hc])]
      simp

/-- C10 counterexample: when the gyroscope sheet contains a column named
like an accelerometer channel, the merge assigns the interpolated
gyroscope values over the accelerometer column in place: the merged
"Acceleration y" column is the interpolated gyroscope data (100, 100),
not the accelerometer data (5, 6). -/
theorem C10_overwrite_counterexample :
    loadBasic (.readable ⟨[("Time", [0, 1]), ("Acceleration y", [5, 6])]⟩
        ⟨[("Time", [0, 1]), ("Acceleration y", [100, 100])]⟩) =
      some ⟨[("Time", [0, 1]), ("Acceleration y", [100, 100])]⟩ ∧
    Table.getColD ⟨[("Time", [0, 1]), ("Acceleration y", [5, 6])]⟩
        "Acceleration y" = [5, 6] ∧
    ([100, 100] : List ℚ) ≠ [5, 6] :=
  ⟨by decide, by decide, by decide⟩

/-- C10 as amended: provided no non-time gyroscope column shares a name
with an accelerometer column (as with the standard phyphox schemas),
merging appends the interpolated gyroscope columns after the
accelerometer columns and leaves every accelerometer channel column
unchanged in value and position; a name collision instead overwrites the
accelerometer column in place with interpolated gyroscope values. -/
theorem C10_merge_preserves_acc_amended :
    ∀ (acc gyro : Table) (ta tg : String),
      UniqueTimeCol acc ta → UniqueTimeCol gyro tg →
      (gyro.cols.map Prod.fst).Nodup →
      (∀ n ∈ gyro.cols.map Prod.fst, n ≠ tg →
        n ∉ (acc.renameCol ta "Time").cols.map Prod.fst) →
      ((mergeTables (acc.renameCol ta "Time")
          (gyro.renameCol tg "Time")).cols =
        (acc.renameCol ta "Time").cols ++
          ((gyro.renameCol tg "Time").cols.filter
            (fun c => c.1 ≠ "Time")).map
            (fun c => (c.1, npInterp (acc.getColD ta) (gyro.getColD tg) c.2))) ∧
      (∀ i : ℕ, i < acc.cols.length →
        (acc.cols.getD i ("", [])).1 ≠ ta →
        (mergeTables (acc.renameCol ta "Time")
          (gyro.renameCol tg "Time")).cols.getD i ("", []) =
          acc.cols.getD i ("", [])) := by
  intro acc gyro ta tg hta htg hnd hdisjraw
  obtain ⟨hfa, hua⟩ := hta
  obtain ⟨hfg, hug⟩ := htg
  have hA : (acc.renameCol ta "Time").getCol? "Time" = acc.getCol? ta := by
    obtain ⟨acols⟩ := acc
    exact rename_getCol_time acols ta hua
  have hG : (gyro.renameCol tg "Time").getCol? "Time" = gyro.getCol? tg := by
    obtain ⟨gcols⟩ := gyro
    exact rename_getCol_time gcols tg hug
  have hGnd : (((gyro.renameCol tg "Time").cols).map Prod.fst).Nodup := by
    obtain ⟨gcols⟩ := gyro
    exact rename_nodup gcols tg hnd hug
  have hAD : (acc.renameCol ta "Time").getColD "Time" = acc.getColD ta := by
    rw [Table.getColD, hA]
    rfl
  have hGD : (gyro.renameCol tg "Time").getColD "Time" = gyro.getColD tg := by
    rw [Table.getColD, hG]
    rfl
  have hdisj : ∀ c ∈ (gyro.renameCol tg "Time").cols, c.1 ≠ "Time" →
      c.1 ∉ (acc.renameCol ta "Time").cols.map Prod.fst := by
    intro c hcG hcT
    obtain ⟨d, hd, hrn⟩ : ∃ d ∈ gyro.cols,
        (if d.1 = tg then ("Time", d.2) else d) = c := by
      simpa [Table.renameCol] using hcG
    by_cases hdt : d.1 = tg
    · rw [if_pos hdt] at hrn
      rw [← hrn] at hcT
      exact absurd rfl hcT
    · rw [if_neg hdt] at hrn
      rw [← hrn]
      exact hdisjraw d.1 (List.mem_map_of_mem Prod.fst hd) hdt
  have hcols : (mergeTables (acc.renameCol ta "Time")
      (gyro.renameCol tg "Time")).cols =
      (acc.renameCol ta "Time").cols ++
        ((gyro.renameCol tg "Time").cols.filter (fun c => c.1 ≠ "Time")).map
          (fun c => (c.1,
            npInterp (acc.getColD ta) (gyro.getColD tg) c.2)) := by
    simp only [mergeTables]
    rw [foldl_mergeStep_append _ _ _ _ hGnd hdisj]
    simp only [hAD, hGD]
  refine ⟨hcols, ?_⟩
  intro i hi hne
  have hiA : i < (acc.renameCol ta "Time").cols.length := by
    simpa [Table.renameCol] using hi
  rw [hcols, List.getD_append _ _ _ _ hiA]
  show ((acc.cols.map (fun c => if c.1 = ta then ("Time", c.2) else c)).getD i
    ("", [])) = acc.cols.getD i ("", [])
  rw [List.getD_eq_getElem?_getD, List.getD_eq_getElem?_getD,
    List.getElem?_map, List.getElem?_eq_getElem hi]
  have hne' : (acc.cols[i]).1 ≠ ta := by
    rwa [List.getD_eq_getElem acc.cols ("", []) hi] at hne
  simp [if_neg hne']

/-- Witness for C10's amended theorem: with disjoint channel names the
second accelerometer column survives the merge untouched. -/
theorem C10_amended_witness :
    (1 < ((⟨[("Time", [0, 1]), ("Acceleration y", [5, 6])]⟩ :
      Table).cols).length) ∧
    (mergeTables
        ((⟨[("Time", [0, 1]), ("Acceleration y", [5, 6])]⟩ :
          Table).renameCol "Time" "Time")
        ((⟨[("Time", [0, 1]), ("Gyroscope z", [2, 2])]⟩ :
          Table).renameCol "Time" "Time")).cols.getD 1 ("", []) =
      ((⟨[("Time", [0, 1]), ("Acceleration y", [5, 6])]⟩ :
        Table).cols).getD 1 ("", []) :=
  ⟨by decide,
    (C10_merge_preserves_acc_amended
      ⟨[("Time", [0, 1]), ("Acceleration y", [5, 6])]⟩
      ⟨[("Time", [0, 1]), ("Gyroscope z", [2, 2])]⟩ "Time" "Time"
      (by decide) (by decide) (by decide) (by decide)).2 1 (by decide)
      (by decide)⟩

end ISA
